import Mathlib

/-!
# Unaligned memory access benchmark (`src/memoryAccess.cpp`)

A shallow embedding of the benchmark's `initData` and `main`, followed by the
properties of its specification.

Modelling conventions
* The storage of `std::vector<ValType> data` is a byte array of
  `4 * data.length` bytes; element `j` occupies bytes `4*j .. 4*j+3`,
  least significant byte first (little-endian, `sizeof(unsigned) = 4`).
* A pointer into the vector is the byte distance from `data.data()`.
* Dereferencing a `ValType*` whose four bytes are not all inside the storage
  is undefined behaviour; the embedding returns `none` there.
* `unsigned long long` arithmetic is taken modulo `2^64`, `unsigned`
  conversion modulo `2^32`.
* `rand()` after `srand(1)` is a stream `rand : Nat → Nat` (the k-th draw).
-/

namespace MemoryAccess

/-! ## Constants of the translation unit -/

/-- Number of elements of `data` and `randIndices` (`#define ARR_SIZE 10000`). -/
@[irreducible] def ARR_SIZE : Nat := 10000

/-- Requested number of offsets (`#define DESIRED_OFFSET 4`). -/
def DESIRED_OFFSET : Int := 4

/-- Byte width of `ValType` (`typedef unsigned ValType`, 32-bit `unsigned`). -/
def sizeof_ValType : Nat := 4

/-- Value of `sizeof(typeid(ValType))`, that is `sizeof(std::type_info)`: the
operand of `sizeof` is the lvalue of type `const std::type_info` that `typeid`
yields. With the Itanium C++ ABI on a 64-bit target the class holds a vtable
pointer and a name pointer, 16 bytes. -/
def sizeof_type_info : Int := 16

/-- Modulus of `unsigned long long`. -/
def ULL_MOD : Nat := 2 ^ 64

/-- Modulus of `unsigned`. -/
def UINT_MOD : Nat := 2 ^ 32

/-! ## Memory of the vector -/

/-- Byte at byte address `a` of the storage of `data`: byte `a % 4` of element
`a / 4`, least significant byte first. -/
def byteAt (data : List Nat) (a : Nat) : Nat :=
  data.getD (a / 4) 0 / 256 ^ (a % 4) % 256

/-- The 32-bit value formed by the four bytes at addresses `a .. a+3`. -/
def word (data : List Nat) (a : Nat) : Nat :=
  byteAt data a + 256 * byteAt data (a + 1) + 65536 * byteAt data (a + 2)
    + 16777216 * byteAt data (a + 3)

/-- Dereference of a `ValType*` at byte address `a`: defined only when all four
bytes lie inside the `4 * data.length` bytes of the vector. -/
def load (data : List Nat) (a : Nat) : Option Nat :=
  if a + sizeof_ValType ≤ sizeof_ValType * data.length then some (word data a) else none

/-! ## `initData` -/

/-- Contents of the two global vectors after `initData`. -/
structure Globals where
  data : List Nat
  randIndices : List Nat

/-- The function `initData`: `data[j] = rand() % 2` for each slot in order, then, in
a `RANDOM` build, `randIndices[j] = rand() % ARR_SIZE` from the following
draws. -/
def initData (RANDOM : Bool) (rand : Nat → Nat) : Globals :=
  { data := (List.range ARR_SIZE).map (fun j => rand j % 2)
    randIndices :=
      if RANDOM then (List.range ARR_SIZE).map (fun j => rand (ARR_SIZE + j) % ARR_SIZE)
      else [] }

/-! ## The summation loops of `main` -/

/-- Variables of the summation loops, with the log of dereferenced addresses. -/
structure State where
  sum : Nat
  curr : Nat
  reads : List Nat
deriving DecidableEq, Repr

/-- One iteration of the innermost loop (lines 90-102): with `RANDOM`,
`sum += *(curr + randIndices[i])`; otherwise `sum += (*curr); curr++`. -/
def body (RANDOM : Bool) (data randIndices : List Nat) (i : Nat) (s : State) :
    Option State :=
  if RANDOM then
    let a := s.curr + sizeof_ValType * randIndices.getD i 0
    match load data a with
    | none => none
    | some v => some { s with sum := (s.sum + v) % ULL_MOD, reads := s.reads ++ [a] }
  else
    match load data s.curr with
    | none => none
    | some v =>
      some { sum := (s.sum + v) % ULL_MOD
             curr := s.curr + sizeof_ValType
             reads := s.reads ++ [s.curr] }

/-- The loop `for (i = ...; i < ...; i++)` of line 88, run for `n` more
iterations starting at index `i`. -/
def innerLoop (RANDOM : Bool) (data randIndices : List Nat) :
    Nat → Nat → State → Option State
  | 0, _, s => some s
  | n + 1, i, s =>
    match body RANDOM data randIndices i s with
    | none => none
    | some s1 => innerLoop RANDOM data randIndices n (i + 1) s1

/-- The loop `for (rep = 0; rep < REPS; rep++)` of line 84, run for `reps`
iterations: reset `curr` to `data.data() + offset`, then scan
`ARR_SIZE - 1` elements. -/
def repLoop (RANDOM : Bool) (data randIndices : List Nat) (offset : Nat) :
    Nat → State → Option State
  | 0, s => some s
  | reps + 1, s =>
    match innerLoop RANDOM data randIndices (ARR_SIZE - 1) 0 { s with curr := offset } with
    | none => none
    | some s1 => repLoop RANDOM data randIndices offset reps s1

/-! ## Command line -/

/-- The C library predicate `isspace` in the "C" locale: space, `\t`, `\n`, `\v`, `\f`,
`\r`. -/
def isspace (c : Char) : Bool :=
  c.toNat = 32 || (9 ≤ c.toNat && c.toNat ≤ 13)

/-- Drop the leading white space that `atoi` skips. -/
def skipSpace : List Char → List Char
  | [] => []
  | c :: cs => if isspace c then skipSpace cs else c :: cs

/-- Value of the longest run of decimal digits at the head of the text, continuing
from the value `acc` read so far. -/
def digitsValue (acc : Nat) : List Char → Nat
  | [] => acc
  | c :: cs => if c.isDigit then digitsValue (10 * acc + (c.toNat - 48)) cs else acc

/-- The C library function `atoi`: skip white space, take an optional sign, convert the
following run of decimal digits (an empty run converts to 0) and ignore the
rest of the text. A value that does not fit `int` is undefined behaviour
(`none`). -/
def atoi (s : String) : Option Int :=
  let v : Int :=
    match skipSpace s.data with
    | '-' :: rest => - (digitsValue 0 rest : Int)
    | '+' :: rest => (digitsValue 0 rest : Int)
    | rest => (digitsValue 0 rest : Int)
  if -2147483648 ≤ v ∧ v ≤ 2147483647 then some v else none

/-- Line 66: `const unsigned REPS = (argc == 2 ? atoi(argv[1]) : 10000);` with
`argc = argv.length`; the `int` result of `atoi` is converted to `unsigned`. -/
def REPS (argv : List String) : Option Nat :=
  if argv.length = 2 then
    match atoi (argv.getD 1 "") with
    | none => none
    | some v => some (v % (UINT_MOD : Int)).toNat
  else some 10000

/-! ## Offset sweep -/

/-- Line 68 with the two operands of `std::min` as arguments. -/
def maxOffset (desiredOffset sizeofTypeInfo : Int) : Int :=
  min desiredOffset sizeofTypeInfo

/-- Line 68: `const int MAX_OFFSET = std::min(DESIRED_OFFSET, (int)sizeof(typeid(ValType)));`. -/
def MAX_OFFSET : Int := maxOffset DESIRED_OFFSET sizeof_type_info

/-- Offsets visited by `for (int offset = 0; (offset < MAX_OFFSET); offset++)` for a
given bound. -/
def sweepOffsets (bound : Int) : List Nat := List.range bound.toNat

/-! ## Timer and output -/

/-- Modelled from the spec: `GUtil::Timer` of `gTimer.h`, a header that is not among
the sources. `start()` records the current instant of a clock, `end()`
records a second instant, and the timer prints the elapsed duration
`end - start`. -/
structure Timer where
  started : Nat
  ended : Nat
deriving Repr

/-- Modelled from the spec: `Timer::start`, reading the clock at its `tick`-th query. -/
def Timer.start (clock : Nat → Nat) (tick : Nat) : Timer :=
  { started := clock tick, ended := clock tick }

/-- Modelled from the spec: `Timer::end`, reading the clock at its `tick`-th query. -/
def Timer.end_ (t : Timer) (clock : Nat → Nat) (tick : Nat) : Timer :=
  { t with ended := clock tick }

/-- Modelled from the spec: the duration a `Timer` prints. -/
def Timer.elapsed (t : Timer) : Int := (t.ended : Int) - (t.started : Int)

/-- Lines written to standard output. -/
inductive Line where
  | banner (RANDOM : Bool)
  | startAddress (offset : Nat) (address : Nat)
  | time (elapsed : Int)
  | sum (value : Nat)
deriving DecidableEq, Repr

/-- The loop `for (int offset = 0; (offset < MAX_OFFSET); offset++)` of lines 77-108,
run for `n` more iterations starting at `offset`. `base` is the address of
`data.data()` and `clock` the successive readings of the timer's clock. -/
def offsetLoop (RANDOM : Bool) (g : Globals) (reps base : Nat) (clock : Nat → Nat) :
    Nat → Nat → State → List Line → Option (State × List Line)
  | 0, _, s, out => some (s, out)
  | n + 1, offset, s, out =>
    let out1 := out ++ [Line.startAddress offset (base + offset)]
    let timer := Timer.start clock (2 * offset)
    match repLoop RANDOM g.data g.randIndices offset reps { s with curr := offset } with
    | none => none
    | some s1 =>
      let timer1 := timer.end_ clock (2 * offset + 1)
      offsetLoop RANDOM g reps base clock n (offset + 1) s1
        (out1 ++ [Line.time timer1.elapsed])

/-- The function `main`, as the lines it prints. `RANDOM` tells whether the build defines
the `RANDOM` switch, `argv` is the command line (program name first), `rand`
the draws of `rand()` after `srand(1)`, `base` the address of the vector's
storage and `clock` the readings of the timer's clock. -/
def main (RANDOM : Bool) (argv : List String) (rand : Nat → Nat) (base : Nat)
    (clock : Nat → Nat) : Option (List Line) :=
  match REPS argv with
  | none => none
  | some reps =>
    let g := initData RANDOM rand
    match offsetLoop RANDOM g reps base clock MAX_OFFSET.toNat 0
        { sum := 0, curr := 0, reads := [] } [Line.banner RANDOM] with
    | none => none
    | some (s, out) => some (out ++ [Line.sum s.sum])

/-- The value a line reports if it is the `Sum : ` line. -/
def Line.sumValue : Line → Option Nat
  | Line.sum v => some v
  | _ => none

/-- The value on the final `Sum : ` line of a run, if the run prints one. -/
def printedSum : Option (List Line) → Option Nat
  | none => none
  | some out => out.findSome? Line.sumValue

/-! ## Reference quantities used in the statements -/

/-- Addresses dereferenced by one sequential scan of `n` view elements starting at byte
address `a`. -/
def scanAddrs (a n : Nat) : List Nat := (List.range n).map (fun i => a + 4 * i)

/-- Exact, unbounded sum of the `n` view elements at byte addresses `a`, `a + 4`, ... -/
def scanSum (data : List Nat) (a n : Nat) : Nat :=
  ((List.range n).map (fun i => word data (a + 4 * i))).sum

/-- Byte address dereferenced by iteration `i` of a scan at byte offset `offset`:
`curr + randIndices[i]` in a `RANDOM` build, the `i`-th view element otherwise. -/
def readAddr (RANDOM : Bool) (randIndices : List Nat) (offset i : Nat) : Nat :=
  if RANDOM then offset + 4 * randIndices.getD i 0 else offset + 4 * i

/-- Exact, unbounded sum of the `ARR_SIZE - 1` values that one scan at byte offset
`offset` reads. -/
def exactScan (RANDOM : Bool) (data randIndices : List Nat) (offset : Nat) : Nat :=
  ((List.range (ARR_SIZE - 1)).map
    (fun i => word data (readAddr RANDOM randIndices offset i))).sum

/-- Exact, unbounded total of all values read by a sweep over the offsets
`0 .. maxOff - 1` with `reps` repetitions each. -/
def exactTotal (RANDOM : Bool) (data randIndices : List Nat) (reps maxOff : Nat) : Nat :=
  ((List.range maxOff).map (fun k => reps * exactScan RANDOM data randIndices k)).sum

/-- Exact sum of the values read by iterations `i .. i + n - 1` of a scan. -/
def partScan (RANDOM : Bool) (data randIndices : List Nat) (offset i n : Nat) : Nat :=
  ((List.range n).map (fun j => word data (readAddr RANDOM randIndices offset (i + j)))).sum

/-- Exact total of the values read at the offsets `offset .. offset + n - 1`. -/
def partTotal (RANDOM : Bool) (data randIndices : List Nat) (reps offset n : Nat) : Nat :=
  ((List.range n).map (fun j => reps * exactScan RANDOM data randIndices (offset + j))).sum

/-- A sequence of draws whose draw number `ARR_SIZE + 2753` (the one that fills
`randIndices[2753]`) is 19999 and whose other draws are 0. -/
def drawsHittingLast (k : Nat) : Nat := if k = 12753 then 19999 else 0

/-! ## Auxiliary lemmas -/

theorem ARR_SIZE_eq : ARR_SIZE = 10000 := by
  unfold ARR_SIZE
  rfl

theorem scanAddrs_zero (a : Nat) : scanAddrs a 0 = [] := rfl

theorem scanAddrs_succ (a n : Nat) : scanAddrs a (n + 1) = a :: scanAddrs (a + 4) n := by
  unfold scanAddrs
  rw [List.range_succ_eq_map, List.map_cons, List.map_map]
  simp only [Nat.mul_zero, Nat.add_zero, List.cons.injEq, true_and]
  apply List.map_congr_left
  intro i _
  simp only [Function.comp_apply, Nat.succ_eq_add_one]
  omega

theorem scanSum_zero (data : List Nat) (a : Nat) : scanSum data a 0 = 0 := rfl

theorem scanSum_succ (data : List Nat) (a n : Nat) :
    scanSum data a (n + 1) = word data a + scanSum data (a + 4) n := by
  unfold scanSum
  rw [List.range_succ_eq_map, List.map_cons, List.map_map, List.sum_cons]
  simp only [Nat.mul_zero, Nat.add_zero, Nat.add_left_cancel_iff]
  congr 1
  apply List.map_congr_left
  intro i _
  simp only [Function.comp_apply, Nat.succ_eq_add_one]
  congr 1
  omega

theorem load_of_le {data : List Nat} {a : Nat} (h : a + 4 ≤ 4 * data.length) :
    load data a = some (word data a) := by
  unfold load sizeof_ValType
  rw [if_pos h]

theorem load_of_lt {data : List Nat} {a : Nat} (h : 4 * data.length < a + 4) :
    load data a = none := by
  unfold load sizeof_ValType
  rw [if_neg (by omega)]

/-- Closed form of the sequential inner loop when the scanned range lies inside the
vector. -/
theorem innerLoop_seq (data idx : List Nat) :
    ∀ (n i : Nat) (s : State), s.sum < ULL_MOD → s.curr + 4 * n ≤ 4 * data.length →
      innerLoop false data idx n i s =
        some { sum := (s.sum + scanSum data s.curr n) % ULL_MOD
               curr := s.curr + 4 * n
               reads := s.reads ++ scanAddrs s.curr n } := by
  intro n
  induction n with
  | zero =>
    intro i s hs _
    simp only [innerLoop, scanSum_zero, scanAddrs_zero, Nat.add_zero, Nat.mul_zero,
      List.append_nil, Nat.mod_eq_of_lt hs]
  | succ n ih =>
    intro i s hs h
    have hl : load data s.curr = some (word data s.curr) := load_of_le (by omega)
    have hM : 0 < ULL_MOD := by unfold ULL_MOD; norm_num
    simp only [innerLoop, body, hl, Bool.false_eq_true, if_false]
    rw [ih (i + 1) _ (Nat.mod_lt _ hM) (by simp only [sizeof_ValType]; omega)]
    simp only [scanSum_succ, scanAddrs_succ, sizeof_ValType, List.append_assoc,
      List.singleton_append, Nat.mod_add_mod, Option.some.injEq, State.mk.injEq, and_true]
    constructor
    · congr 1
      omega
    · omega

/-- Closed form of the repetition loop in a sequential build when the scanned range lies
inside the vector. -/
theorem repLoop_seq (data idx : List Nat) (offset : Nat)
    (h : offset + 4 * (ARR_SIZE - 1) ≤ 4 * data.length) :
    ∀ (reps : Nat) (s : State), s.sum < ULL_MOD →
      ∃ s1, repLoop false data idx offset reps s = some s1 ∧
        s1.sum = (s.sum + reps * scanSum data offset (ARR_SIZE - 1)) % ULL_MOD ∧
        s1.reads = s.reads ++
          (List.replicate reps (scanAddrs offset (ARR_SIZE - 1))).flatten := by
  intro reps
  induction reps with
  | zero =>
    intro s hs
    refine ⟨s, rfl, ?_, ?_⟩
    · simp only [Nat.zero_mul, Nat.add_zero, Nat.mod_eq_of_lt hs]
    · simp
  | succ r ih =>
    intro s hs
    have hM : 0 < ULL_MOD := by unfold ULL_MOD; norm_num
    have hin := innerLoop_seq data idx (ARR_SIZE - 1) 0 { s with curr := offset } hs h
    obtain ⟨s1, h1, h2, h3⟩ := ih
      { sum := (s.sum + scanSum data offset (ARR_SIZE - 1)) % ULL_MOD
        curr := offset + 4 * (ARR_SIZE - 1)
        reads := s.reads ++ scanAddrs offset (ARR_SIZE - 1) } (Nat.mod_lt _ hM)
    refine ⟨s1, ?_, ?_, ?_⟩
    · simp only [repLoop, hin]
      exact h1
    · rw [h2]
      simp only [Nat.mod_add_mod]
      have e : s.sum + scanSum data offset (ARR_SIZE - 1) + r * scanSum data offset (ARR_SIZE - 1)
          = s.sum + (r + 1) * scanSum data offset (ARR_SIZE - 1) := by ring
      rw [e]
    · rw [h3]
      simp [List.replicate_succ]

/-! ### Bytes and words -/

theorem byteAt_lt (data : List Nat) (a : Nat) : byteAt data a < 256 := by
  unfold byteAt
  exact Nat.mod_lt _ (by norm_num)

theorem word_lt (data : List Nat) (a : Nat) : word data a < UINT_MOD := by
  have h0 := byteAt_lt data a
  have h1 := byteAt_lt data (a + 1)
  have h2 := byteAt_lt data (a + 2)
  have h3 := byteAt_lt data (a + 3)
  unfold word UINT_MOD
  omega

theorem byteAt_mul_add (data : List Nat) (i j : Nat) (hj : j < 4) :
    byteAt data (4 * i + j) = data.getD i 0 / 256 ^ j % 256 := by
  unfold byteAt
  have h1 : (4 * i + j) / 4 = i := by omega
  have h2 : (4 * i + j) % 4 = j := by omega
  rw [h1, h2]

/-- An aligned view element is the vector element itself (its low 32 bits). -/
theorem word_aligned (data : List Nat) (i : Nat) :
    word data (4 * i) = data.getD i 0 % UINT_MOD := by
  have b0 := byteAt_mul_add data i 0 (by norm_num)
  have b1 := byteAt_mul_add data i 1 (by norm_num)
  have b2 := byteAt_mul_add data i 2 (by norm_num)
  have b3 := byteAt_mul_add data i 3 (by norm_num)
  unfold word UINT_MOD
  rw [Nat.add_zero] at b0
  rw [b0, b1, b2, b3]
  norm_num
  omega

/-- A view element at byte offset `k` in `1..3` of a vector of zeros and ones holds
the next vector element, shifted to byte `4 - k`. -/
theorem word_shifted (data : List Nat) (i k : Nat) (hk1 : 1 ≤ k) (hk4 : k < 4)
    (h0 : data.getD i 0 ≤ 1) (h1 : data.getD (i + 1) 0 ≤ 1) :
    word data (4 * i + k) = data.getD (i + 1) 0 * 2 ^ (8 * (4 - k)) := by
  have a0 := byteAt_mul_add data i 1 (by norm_num)
  have a1 := byteAt_mul_add data i 2 (by norm_num)
  have a2 := byteAt_mul_add data i 3 (by norm_num)
  have c0 := byteAt_mul_add data (i + 1) 0 (by norm_num)
  have c1 := byteAt_mul_add data (i + 1) 1 (by norm_num)
  have c2 := byteAt_mul_add data (i + 1) 2 (by norm_num)
  have e4 : 4 * (i + 1) + 0 = 4 * i + 4 := by omega
  have e5 : 4 * (i + 1) + 1 = 4 * i + 5 := by omega
  have e6 : 4 * (i + 1) + 2 = 4 * i + 6 := by omega
  rw [e4] at c0
  rw [e5] at c1
  rw [e6] at c2
  unfold word
  interval_cases k
  · simp only [Nat.add_assoc, Nat.reduceAdd]
    rw [a0, a1, a2, c0]
    generalize data.getD i 0 = x at h0
    generalize data.getD (i + 1) 0 = y at h1
    norm_num
    omega
  · simp only [Nat.add_assoc, Nat.reduceAdd]
    rw [a1, a2, c0, c1]
    generalize data.getD i 0 = x at h0
    generalize data.getD (i + 1) 0 = y at h1
    norm_num
    omega
  · simp only [Nat.add_assoc, Nat.reduceAdd]
    rw [a2, c0, c1, c2]
    generalize data.getD i 0 = x at h0
    generalize data.getD (i + 1) 0 = y at h1
    norm_num
    omega

/-! ### Sums over a scan -/

theorem getD_le_one {data : List Nat} (h : ∀ v ∈ data, v = 0 ∨ v = 1) (i : Nat) :
    data.getD i 0 ≤ 1 := by
  by_cases hi : i < data.length
  · rw [List.getD_eq_getElem data 0 hi]
    rcases h _ (List.getElem_mem hi) with e | e <;> omega
  · rw [List.getD_eq_default data 0 (by omega)]
    omega

theorem take_drop_succ (data : List Nat) (i n : Nat) (hi : i < data.length) :
    (data.drop i).take (n + 1) = data.getD i 0 :: (data.drop (i + 1)).take n := by
  rw [List.drop_eq_getElem_cons hi, List.take_succ_cons, List.getD_eq_getElem data 0 hi]

/-- A scan of an aligned view adds up the vector elements it covers. -/
theorem scanSum_aligned (data : List Nat) (h : ∀ v ∈ data, v < UINT_MOD) :
    ∀ (n i : Nat), i + n ≤ data.length →
      scanSum data (4 * i) n = ((data.drop i).take n).sum := by
  intro n
  induction n with
  | zero =>
    intro i _
    simp [scanSum_zero]
  | succ n ih =>
    intro i hi
    have hlt : i < data.length := by omega
    have e : 4 * i + 4 = 4 * (i + 1) := by omega
    rw [scanSum_succ, e, ih (i + 1) (by omega), take_drop_succ data i n hlt, List.sum_cons,
      word_aligned]
    have hv : data.getD i 0 < UINT_MOD := by
      rw [List.getD_eq_getElem data 0 hlt]
      exact h _ (List.getElem_mem hlt)
    rw [Nat.mod_eq_of_lt hv]

/-- A scan of a view shifted by `k` bytes, over a vector of zeros and ones, adds up
the following vector elements, each shifted to byte `4 - k`. -/
theorem scanSum_shifted (data : List Nat) (h : ∀ v ∈ data, v = 0 ∨ v = 1) (k : Nat)
    (hk1 : 1 ≤ k) (hk4 : k < 4) :
    ∀ (n i : Nat), i + n + 1 ≤ data.length →
      scanSum data (4 * i + k) n = 2 ^ (8 * (4 - k)) * ((data.drop (i + 1)).take n).sum := by
  intro n
  induction n with
  | zero =>
    intro i _
    simp [scanSum_zero]
  | succ n ih =>
    intro i hi
    have hlt : i + 1 < data.length := by omega
    have e : 4 * i + k + 4 = 4 * (i + 1) + k := by omega
    rw [scanSum_succ, e, ih (i + 1) (by omega), take_drop_succ data (i + 1) n hlt,
      List.sum_cons, word_shifted data i k hk1 hk4 (getD_le_one h i) (getD_le_one h (i + 1))]
    ring

theorem sum_eq_count_one : ∀ (l : List Nat), (∀ v ∈ l, v = 0 ∨ v = 1) → l.sum = l.count 1 := by
  intro l
  induction l with
  | nil => intro _; rfl
  | cons a t ih =>
    intro h
    have ht : ∀ v ∈ t, v = 0 ∨ v = 1 := fun v hv => h v (List.mem_cons_of_mem a hv)
    rw [List.sum_cons, List.count_cons, ih ht]
    rcases h a (List.mem_cons_self a t) with e | e
    · subst e
      simp
    · subst e
      simp
      omega

/-- A scan only depends on the bytes below the end of its last view element. -/
theorem scanSum_congr (d1 d2 : List Nat) (bound : Nat)
    (h : ∀ a, a < bound → byteAt d1 a = byteAt d2 a) :
    ∀ (n a : Nat), a + 4 * n ≤ bound → scanSum d1 a n = scanSum d2 a n := by
  intro n
  induction n with
  | zero => intro a _; rfl
  | succ n ih =>
    intro a ha
    rw [scanSum_succ, scanSum_succ, ih (a + 4) (by omega)]
    unfold word
    rw [h a (by omega), h (a + 1) (by omega), h (a + 2) (by omega), h (a + 3) (by omega)]

/-! ### The loops in either build -/

theorem partScan_zero (R : Bool) (data idx : List Nat) (offset i : Nat) :
    partScan R data idx offset i 0 = 0 := rfl

theorem partScan_succ (R : Bool) (data idx : List Nat) (offset i n : Nat) :
    partScan R data idx offset i (n + 1) =
      word data (readAddr R idx offset i) + partScan R data idx offset (i + 1) n := by
  unfold partScan
  rw [List.range_succ_eq_map, List.map_cons, List.map_map, List.sum_cons]
  simp only [Nat.add_zero, Nat.add_left_cancel_iff]
  congr 1
  apply List.map_congr_left
  intro j _
  simp only [Function.comp_apply, Nat.succ_eq_add_one]
  congr 2
  omega

theorem exactScan_eq_partScan (R : Bool) (data idx : List Nat) (offset : Nat) :
    exactScan R data idx offset = partScan R data idx offset 0 (ARR_SIZE - 1) := by
  unfold exactScan partScan
  simp only [Nat.zero_add]

theorem ULL_MOD_pos : 0 < ULL_MOD := by
  unfold ULL_MOD
  norm_num

/-- One iteration of the innermost loop reads the address `readAddr` names and adds
the value found there. -/
theorem body_eq (R : Bool) (data idx : List Nat) (offset i : Nat) (s : State)
    (hseq : R = false → s.curr = offset + 4 * i) (hrand : R = true → s.curr = offset) :
    body R data idx i s = none ∨
      ∃ s1, body R data idx i s = some s1 ∧
        s1.sum = (s.sum + word data (readAddr R idx offset i)) % ULL_MOD ∧
        (R = false → s1.curr = offset + 4 * (i + 1)) ∧ (R = true → s1.curr = offset) ∧
        s1.reads = s.reads ++ [readAddr R idx offset i] ∧
        readAddr R idx offset i + 4 ≤ 4 * data.length := by
  cases R with
  | true =>
    have hc := hrand rfl
    by_cases hb : offset + 4 * idx.getD i 0 + 4 ≤ 4 * data.length
    · right
      refine ⟨{ sum := (s.sum + word data (offset + 4 * idx.getD i 0)) % ULL_MOD
                curr := s.curr
                reads := s.reads ++ [offset + 4 * idx.getD i 0] }, ?_, ?_⟩
      · simp only [body, if_true, sizeof_ValType, hc, load_of_le hb]
      · have e : readAddr true idx offset i = offset + 4 * idx.getD i 0 := by
          unfold readAddr
          rw [if_pos rfl]
        rw [e]
        exact ⟨rfl, fun h => Bool.noConfusion h, fun _ => hc, rfl, hb⟩
    · left
      simp only [body, if_true, sizeof_ValType, hc, load_of_lt (Nat.lt_of_not_le hb)]
  | false =>
    have hc := hseq rfl
    by_cases hb : offset + 4 * i + 4 ≤ 4 * data.length
    · right
      refine ⟨{ sum := (s.sum + word data (offset + 4 * i)) % ULL_MOD
                curr := offset + 4 * i + 4
                reads := s.reads ++ [offset + 4 * i] }, ?_, ?_⟩
      · simp only [body, Bool.false_eq_true, if_false, sizeof_ValType, hc, load_of_le hb]
      · have e : readAddr false idx offset i = offset + 4 * i := by
          unfold readAddr
          rw [if_neg Bool.false_ne_true]
        rw [e]
        exact ⟨rfl, fun _ => by show offset + 4 * i + 4 = offset + 4 * (i + 1); omega,
          fun h => Bool.noConfusion h, rfl, hb⟩
    · left
      simp only [body, Bool.false_eq_true, if_false, sizeof_ValType, hc,
        load_of_lt (Nat.lt_of_not_le hb)]

/-- Whenever the innermost loop completes it has added the exact sum of the values
read, modulo `2^64`. -/
theorem innerLoop_sum (R : Bool) (data idx : List Nat) (offset : Nat) :
    ∀ (n i : Nat) (s : State), s.sum < ULL_MOD →
      (R = false → s.curr = offset + 4 * i) → (R = true → s.curr = offset) →
      innerLoop R data idx n i s = none ∨
        ∃ s1, innerLoop R data idx n i s = some s1 ∧
          s1.sum = (s.sum + partScan R data idx offset i n) % ULL_MOD := by
  intro n
  induction n with
  | zero =>
    intro i s hs _ _
    right
    exact ⟨s, rfl, by rw [partScan_zero, Nat.add_zero, Nat.mod_eq_of_lt hs]⟩
  | succ n ih =>
    intro i s hs hseq hrand
    rcases body_eq R data idx offset i s hseq hrand with hb | ⟨s1, hb, hsum, hc1, hc2, _, _⟩
    · left
      simp only [innerLoop, hb]
    · have hs1 : s1.sum < ULL_MOD := by
        rw [hsum]
        exact Nat.mod_lt _ ULL_MOD_pos
      rcases ih (i + 1) s1 hs1 hc1 hc2 with hn | ⟨s2, h2, hsum2⟩
      · left
        simp only [innerLoop, hb, hn]
      · right
        refine ⟨s2, ?_, ?_⟩
        · simp only [innerLoop, hb, h2]
        · rw [hsum2, hsum, partScan_succ, Nat.mod_add_mod, Nat.add_assoc]

/-- Whenever the repetition loop completes it has added `reps` times the exact sum of
one scan, modulo `2^64`. -/
theorem repLoop_sum (R : Bool) (data idx : List Nat) (offset : Nat) :
    ∀ (reps : Nat) (s : State), s.sum < ULL_MOD →
      repLoop R data idx offset reps s = none ∨
        ∃ s1, repLoop R data idx offset reps s = some s1 ∧
          s1.sum = (s.sum + reps * exactScan R data idx offset) % ULL_MOD := by
  intro reps
  induction reps with
  | zero =>
    intro s hs
    right
    exact ⟨s, rfl, by rw [Nat.zero_mul, Nat.add_zero, Nat.mod_eq_of_lt hs]⟩
  | succ r ih =>
    intro s hs
    rcases innerLoop_sum R data idx offset (ARR_SIZE - 1) 0 { s with curr := offset } hs
        (fun _ => rfl) (fun _ => rfl) with hn | ⟨s1, h1, hsum1⟩
    · left
      simp only [repLoop, hn]
    · have hs1 : s1.sum < ULL_MOD := by
        rw [hsum1]
        exact Nat.mod_lt _ ULL_MOD_pos
      rcases ih s1 hs1 with hn | ⟨s2, h2, hsum2⟩
      · left
        simp only [repLoop, h1, hn]
      · right
        refine ⟨s2, ?_, ?_⟩
        · simp only [repLoop, h1, h2]
        · rw [hsum2, hsum1, ← exactScan_eq_partScan, Nat.mod_add_mod]
          have e : s.sum + exactScan R data idx offset + r * exactScan R data idx offset
              = s.sum + (r + 1) * exactScan R data idx offset := by ring
          rw [e]

theorem partTotal_zero (R : Bool) (data idx : List Nat) (reps offset : Nat) :
    partTotal R data idx reps offset 0 = 0 := rfl

theorem sum_map_range_succ (f : Nat → Nat) (n : Nat) :
    ((List.range (n + 1)).map f).sum = f 0 + ((List.range n).map (fun j => f (j + 1))).sum := by
  rw [List.range_succ_eq_map, List.map_cons, List.map_map, List.sum_cons]
  rfl

theorem partTotal_succ (R : Bool) (data idx : List Nat) (reps offset n : Nat) :
    partTotal R data idx reps offset (n + 1) =
      reps * exactScan R data idx offset + partTotal R data idx reps (offset + 1) n := by
  have e : ∀ j, offset + 1 + j = offset + (j + 1) := fun j => by omega
  unfold partTotal
  rw [sum_map_range_succ]
  simp only [Nat.add_zero, e]

theorem exactTotal_eq_partTotal (R : Bool) (data idx : List Nat) (reps n : Nat) :
    exactTotal R data idx reps n = partTotal R data idx reps 0 n := by
  unfold exactTotal partTotal
  simp only [Nat.zero_add]

/-- Whenever the offset loop completes, the accumulator holds the exact total of the
values read, modulo `2^64`, and no `Sum : ` line has been printed by the loop. -/
theorem offsetLoop_sum (R : Bool) (g : Globals) (reps base : Nat) (clock : Nat → Nat) :
    ∀ (n offset : Nat) (s : State) (out : List Line), s.sum < ULL_MOD →
      offsetLoop R g reps base clock n offset s out = none ∨
        ∃ s1 out1, offsetLoop R g reps base clock n offset s out = some (s1, out1) ∧
          s1.sum = (s.sum + partTotal R g.data g.randIndices reps offset n) % ULL_MOD ∧
          out1.findSome? Line.sumValue = out.findSome? Line.sumValue := by
  intro n
  induction n with
  | zero =>
    intro offset s out hs
    right
    exact ⟨s, out, rfl, by rw [partTotal_zero, Nat.add_zero, Nat.mod_eq_of_lt hs], rfl⟩
  | succ n ih =>
    intro offset s out hs
    rcases repLoop_sum R g.data g.randIndices offset reps { s with curr := offset } hs
      with hn | ⟨s1, h1, hsum1⟩
    · left
      simp only [offsetLoop, hn]
    · have hs1 : s1.sum < ULL_MOD := by
        rw [hsum1]
        exact Nat.mod_lt _ ULL_MOD_pos
      rcases ih (offset + 1) s1
          (out ++ [Line.startAddress offset (base + offset)] ++
            [Line.time ((Timer.start clock (2 * offset)).end_ clock (2 * offset + 1)).elapsed])
          hs1 with hn | ⟨s2, out2, h2, hsum2, hout2⟩
      · left
        simp only [offsetLoop, h1, hn]
      · right
        refine ⟨s2, out2, ?_, ?_, ?_⟩
        · simp only [offsetLoop, h1, h2]
        · rw [hsum2, hsum1, partTotal_succ, Nat.mod_add_mod, Nat.add_assoc]
        · rw [hout2]
          simp [List.findSome?_append, Line.sumValue]

/-- In a sequential build the offset loop completes for offsets up to 4. -/
theorem offsetLoop_seq_some (g : Globals) (reps base : Nat) (clock : Nat → Nat)
    (hlen : g.data.length = ARR_SIZE) :
    ∀ (n offset : Nat) (s : State) (out : List Line), s.sum < ULL_MOD → offset + n ≤ 4 →
      ∃ r, offsetLoop false g reps base clock n offset s out = some r := by
  intro n
  induction n with
  | zero =>
    intro offset s out _ _
    exact ⟨(s, out), rfl⟩
  | succ n ih =>
    intro offset s out hs hn
    have hA : ARR_SIZE = 10000 := ARR_SIZE_eq
    obtain ⟨s1, h1, hsum1, _⟩ := repLoop_seq g.data g.randIndices offset (by omega) reps
      { s with curr := offset } hs
    have hs1 : s1.sum < ULL_MOD := by
      rw [hsum1]
      exact Nat.mod_lt _ ULL_MOD_pos
    obtain ⟨r, hr⟩ := ih (offset + 1) s1
      (out ++ [Line.startAddress offset (base + offset)] ++
        [Line.time ((Timer.start clock (2 * offset)).end_ clock (2 * offset + 1)).elapsed])
      hs1 (by omega)
    exact ⟨r, by simp only [offsetLoop, h1, hr]⟩

/-- The variables of the summation loops after the offset loop do not depend on the
address of the vector, on the clock or on what was printed before. -/
theorem offsetLoop_state_indep (R : Bool) (g : Globals) (reps base1 base2 : Nat)
    (clock1 clock2 : Nat → Nat) :
    ∀ (n offset : Nat) (s : State) (out1 out2 : List Line),
      (offsetLoop R g reps base1 clock1 n offset s out1).map Prod.fst =
        (offsetLoop R g reps base2 clock2 n offset s out2).map Prod.fst := by
  intro n
  induction n with
  | zero =>
    intro offset s out1 out2
    rfl
  | succ n ih =>
    intro offset s out1 out2
    cases h : repLoop R g.data g.randIndices offset reps { s with curr := offset } with
    | none => simp only [offsetLoop, h, Option.map_none']
    | some s1 =>
      simp only [offsetLoop, h]
      exact ih (offset + 1) s1 _ _

/-- The printed sum of a run is the accumulator left by the offset loop. -/
theorem printedSum_main (R : Bool) (argv : List String) (rand : Nat → Nat) (base : Nat)
    (clock : Nat → Nat) :
    printedSum (main R argv rand base clock) =
      (REPS argv).bind (fun reps =>
        (offsetLoop R (initData R rand) reps base clock MAX_OFFSET.toNat 0
          { sum := 0, curr := 0, reads := [] } [Line.banner R]).map (fun r => r.1.sum)) := by
  unfold main
  cases hr : REPS argv with
  | none => rfl
  | some reps =>
    simp only [Option.some_bind]
    rcases offsetLoop_sum R (initData R rand) reps base clock MAX_OFFSET.toNat 0
        { sum := 0, curr := 0, reads := [] } [Line.banner R] ULL_MOD_pos
      with hn | ⟨s1, out1, h1, _, hout⟩
    · rw [hn]
      rfl
    · rw [h1]
      simp only [printedSum, Option.map_some', List.findSome?_append, hout]
      simp [Line.sumValue]

/-! ### Command line -/

theorem mem_of_mem_skipSpace : ∀ (l : List Char) (c : Char), c ∈ skipSpace l → c ∈ l := by
  intro l
  induction l with
  | nil => intro c h; exact h
  | cons a t ih =>
    intro c h
    unfold skipSpace at h
    by_cases ha : isspace a = true
    · rw [if_pos ha] at h
      exact List.mem_cons_of_mem a (ih c h)
    · rw [if_neg ha] at h
      exact h

theorem digitsValue_of_no_digit (l : List Char) (h : ∀ c ∈ l, c.isDigit = false) :
    digitsValue 0 l = 0 := by
  cases l with
  | nil => rfl
  | cons a t =>
    have ha : a.isDigit = false := h a (List.mem_cons_self a t)
    simp only [digitsValue, ha, Bool.false_eq_true, if_false]

theorem atoi_of_no_digit (arg : String) (h : ∀ c ∈ arg.data, c.isDigit = false) :
    atoi arg = some 0 := by
  have hs : ∀ c ∈ skipSpace arg.data, c.isDigit = false :=
    fun c hc => h c (mem_of_mem_skipSpace arg.data c hc)
  unfold atoi
  generalize skipSpace arg.data = l at hs
  have hv : (match l with
      | '-' :: rest => - (digitsValue 0 rest : Int)
      | '+' :: rest => (digitsValue 0 rest : Int)
      | rest => (digitsValue 0 rest : Int)) = 0 := by
    split
    · rename_i rest
      rw [digitsValue_of_no_digit rest (fun c hc => hs c (List.mem_cons_of_mem _ hc))]
      rfl
    · rename_i rest
      rw [digitsValue_of_no_digit rest (fun c hc => hs c (List.mem_cons_of_mem _ hc))]
      rfl
    · rw [digitsValue_of_no_digit l hs]
      rfl
  simp only [hv]
  rfl

/-! ### Random build -/

theorem body_rand (data idx : List Nat) (i : Nat) (s : State) :
    body true data idx i s =
      if s.curr + 4 * idx.getD i 0 + 4 ≤ 4 * data.length then
        some { sum := (s.sum + word data (s.curr + 4 * idx.getD i 0)) % ULL_MOD
               curr := s.curr
               reads := s.reads ++ [s.curr + 4 * idx.getD i 0] }
      else none := by
  by_cases hb : s.curr + 4 * idx.getD i 0 + 4 ≤ 4 * data.length
  · rw [if_pos hb]
    simp only [body, if_true, sizeof_ValType, load_of_le hb]
  · rw [if_neg hb]
    simp only [body, if_true, sizeof_ValType, load_of_lt (Nat.lt_of_not_le hb)]

/-- In a `RANDOM` build the innermost loop fails as soon as one of its reads leaves the
vector. -/
theorem innerLoop_rand_none (data idx : List Nat) :
    ∀ (n i : Nat) (s : State),
      (∃ j, j < n ∧ 4 * data.length < s.curr + 4 * idx.getD (i + j) 0 + 4) →
      innerLoop true data idx n i s = none := by
  intro n
  induction n with
  | zero =>
    rintro i s ⟨j, hj, _⟩
    omega
  | succ n ih =>
    rintro i s ⟨j, hj, hbad⟩
    by_cases hb : s.curr + 4 * idx.getD i 0 + 4 ≤ 4 * data.length
    · have hj0 : j ≠ 0 := by
        intro e
        subst e
        simp only [Nat.add_zero] at hbad
        omega
      obtain ⟨j1, rfl⟩ := Nat.exists_eq_succ_of_ne_zero hj0
      simp only [innerLoop, body_rand, if_pos hb]
      apply ih
      refine ⟨j1, by omega, ?_⟩
      have e : i + 1 + j1 = i + Nat.succ j1 := by omega
      rw [e]
      exact hbad
    · simp only [innerLoop, body_rand, if_neg hb]

/-- In a `RANDOM` build the innermost loop completes, leaving `curr` alone, when all its
reads stay inside the vector. -/
theorem innerLoop_rand_some (data idx : List Nat) :
    ∀ (n i : Nat) (s : State),
      (∀ j, j < n → s.curr + 4 * idx.getD (i + j) 0 + 4 ≤ 4 * data.length) →
      ∃ s1, innerLoop true data idx n i s = some s1 := by
  intro n
  induction n with
  | zero =>
    intro i s _
    exact ⟨s, rfl⟩
  | succ n ih =>
    intro i s h
    have hb : s.curr + 4 * idx.getD i 0 + 4 ≤ 4 * data.length := by
      have h0 := h 0 (by omega)
      rw [Nat.add_zero] at h0
      exact h0
    simp only [innerLoop, body_rand, if_pos hb]
    apply ih
    intro j hj
    have hj1 := h (j + 1) (by omega)
    have e : i + 1 + j = i + (j + 1) := by omega
    rw [e]
    exact hj1

theorem repLoop_rand_none (data idx : List Nat) (offset reps : Nat) (s : State)
    (h : ∃ j, j < ARR_SIZE - 1 ∧ 4 * data.length < offset + 4 * idx.getD j 0 + 4) :
    repLoop true data idx offset (reps + 1) s = none := by
  obtain ⟨j, hj, hbad⟩ := h
  have hin := innerLoop_rand_none data idx (ARR_SIZE - 1) 0 { s with curr := offset }
    ⟨j, hj, by rw [Nat.zero_add]; exact hbad⟩
  simp only [repLoop, hin]

theorem repLoop_rand_some (data idx : List Nat) (offset : Nat)
    (h : ∀ j, j < ARR_SIZE - 1 → offset + 4 * idx.getD j 0 + 4 ≤ 4 * data.length) :
    ∀ (reps : Nat) (s : State), ∃ s1, repLoop true data idx offset reps s = some s1 := by
  intro reps
  induction reps with
  | zero =>
    intro s
    exact ⟨s, rfl⟩
  | succ r ih =>
    intro s
    obtain ⟨s1, h1⟩ := innerLoop_rand_some data idx (ARR_SIZE - 1) 0 { s with curr := offset }
      (fun j hj => by rw [Nat.zero_add]; exact h j hj)
    obtain ⟨s2, h2⟩ := ih s1
    exact ⟨s2, by simp only [repLoop, h1, h2]⟩

/-! ### `initData` -/

theorem initData_data (R : Bool) (rand : Nat → Nat) :
    (initData R rand).data = (List.range ARR_SIZE).map (fun j => rand j % 2) := rfl

theorem initData_randIndices (rand : Nat → Nat) :
    (initData true rand).randIndices =
      (List.range ARR_SIZE).map (fun j => rand (ARR_SIZE + j) % ARR_SIZE) := rfl

theorem initData_data_length (R : Bool) (rand : Nat → Nat) :
    (initData R rand).data.length = ARR_SIZE := by
  rw [initData_data, List.length_map, List.length_range]

theorem initData_data_bit (R : Bool) (rand : Nat → Nat) :
    ∀ v ∈ (initData R rand).data, v = 0 ∨ v = 1 := by
  intro v hv
  rw [initData_data, List.mem_map] at hv
  obtain ⟨j, _, rfl⟩ := hv
  omega

theorem initData_randIndices_getD (rand : Nat → Nat) (i : Nat) (hi : i < ARR_SIZE) :
    (initData true rand).randIndices.getD i 0 = rand (ARR_SIZE + i) % ARR_SIZE := by
  have hl : i < ((List.range ARR_SIZE).map (fun j => rand (ARR_SIZE + j) % ARR_SIZE)).length := by
    rw [List.length_map, List.length_range]
    exact hi
  rw [initData_randIndices, List.getD_eq_getElem _ 0 hl, List.getElem_map, List.getElem_range]

/-! ### Shifted views -/

/-- Bytes below position `k` of two values agree when the values agree modulo `256^k`. -/
theorem low_bytes_eq (x y k j : Nat) (hk : k < 4) (hj : j < k)
    (h : x % 256 ^ k = y % 256 ^ k) : x / 256 ^ j % 256 = y / 256 ^ j % 256 := by
  interval_cases k
  · omega
  · interval_cases j
    norm_num at h ⊢
    omega
  · interval_cases j <;> norm_num at h ⊢ <;> omega
  · interval_cases j <;> norm_num at h ⊢ <;> omega

/-- Two vectors that agree on the slots `0 .. ARR_SIZE - 2` and on the low `offset` bytes
of the last slot hold the same bytes below `4 * (ARR_SIZE - 1) + offset`. -/
theorem byteAt_eq_below (d1 d2 : List Nat) (offset : Nat) (hoff : offset < 4)
    (hsame : ∀ j, j < ARR_SIZE - 1 → d1.getD j 0 = d2.getD j 0)
    (hlow : d1.getD (ARR_SIZE - 1) 0 % 256 ^ offset = d2.getD (ARR_SIZE - 1) 0 % 256 ^ offset) :
    ∀ a, a < 4 * (ARR_SIZE - 1) + offset → byteAt d1 a = byteAt d2 a := by
  intro a ha
  unfold byteAt
  by_cases hq : a / 4 < ARR_SIZE - 1
  · rw [hsame (a / 4) hq]
  · have e : a / 4 = ARR_SIZE - 1 := by omega
    rw [e]
    exact low_bytes_eq _ _ offset (a % 4) hoff (by omega) hlow

/-- One sequential scan at a byte offset `k` in `1..3` over a vector of `ARR_SIZE` zeros
and ones adds `2^(8*(4-k))` for every one among the slots `1 .. ARR_SIZE - 1`. -/
theorem seq_scan_shifted (data idx : List Nat) (k : Nat) (s : State)
    (hlen : data.length = ARR_SIZE) (h01 : ∀ v ∈ data, v = 0 ∨ v = 1)
    (hk1 : 1 ≤ k) (hk4 : k < 4) (hs : s.sum < ULL_MOD) :
    ∃ s1, repLoop false data idx k 1 s = some s1 ∧
      s1.sum = (s.sum + 2 ^ (8 * (4 - k)) * (data.drop 1).count 1) % ULL_MOD := by
  have hA : ARR_SIZE = 10000 := ARR_SIZE_eq
  obtain ⟨s1, h1, hsum, _⟩ := repLoop_seq data idx k (by omega) 1 s hs
  refine ⟨s1, h1, ?_⟩
  have h0 := scanSum_shifted data h01 k hk1 hk4 (ARR_SIZE - 1) 0 (by omega)
  have ht : (data.drop (0 + 1)).take (ARR_SIZE - 1) = data.drop (0 + 1) :=
    List.take_of_length_le (by rw [List.length_drop]; omega)
  have hc := sum_eq_count_one (data.drop (0 + 1)) (fun v hv => h01 v (List.mem_of_mem_drop hv))
  rw [Nat.mul_zero, Nat.zero_add, ht, hc, Nat.zero_add] at h0
  rw [hsum, h0, Nat.one_mul]

/-- Number of ones after the first slot of a vector of zeros closed by one more slot. -/
theorem count_drop_zeros_append (n b : Nat) (hn : 1 ≤ n) :
    ((List.replicate n 0 ++ [b]).drop 1).count 1 = [b].count 1 := by
  rw [List.drop_append_of_le_length (by rw [List.length_replicate]; exact hn),
    List.count_append, List.drop_replicate, List.count_replicate]
  simp

theorem length_zeros_append (b : Nat) :
    (List.replicate (ARR_SIZE - 1) 0 ++ [b]).length = ARR_SIZE := by
  have hA : ARR_SIZE = 10000 := ARR_SIZE_eq
  rw [List.length_append, List.length_replicate, List.length_singleton]
  omega

theorem bits_zeros_append (n b : Nat) (hb : b = 0 ∨ b = 1) :
    ∀ v ∈ List.replicate n 0 ++ [b], v = 0 ∨ v = 1 := by
  intro v hv
  rcases List.mem_append.mp hv with h | h
  · exact Or.inl (List.eq_of_mem_replicate h)
  · rw [List.mem_singleton] at h
    rw [h]
    exact hb

/-! ### Whole runs -/

theorem MAX_OFFSET_toNat : MAX_OFFSET.toNat = 4 := by decide

theorem REPS_default (prog : String) : REPS [prog] = some 10000 := rfl

/-- In a `RANDOM` build with at least one repetition, an index equal to `ARR_SIZE - 1`
among the first `ARR_SIZE - 1` indices makes the sweep read outside the
vector at offset 1, after the sweep at offset 0 has completed. -/
theorem offsetLoop_rand_none (g : Globals) (reps base : Nat) (clock : Nat → Nat) (n : Nat)
    (s : State) (out : List Line) (hlen : g.data.length = ARR_SIZE)
    (hidx : ∀ j, j < ARR_SIZE - 1 → g.randIndices.getD j 0 < ARR_SIZE)
    (hhit : ∃ j, j < ARR_SIZE - 1 ∧ g.randIndices.getD j 0 = ARR_SIZE - 1) :
    offsetLoop true g (reps + 1) base clock (n + 2) 0 s out = none := by
  have hA : ARR_SIZE = 10000 := ARR_SIZE_eq
  obtain ⟨s1, h0⟩ := repLoop_rand_some g.data g.randIndices 0
    (fun j hj => by have := hidx j hj; omega) (reps + 1) { s with curr := 0 }
  obtain ⟨j, hj, hlast⟩ := hhit
  have h1 := repLoop_rand_none g.data g.randIndices (0 + 1) reps { s1 with curr := 0 + 1 }
    ⟨j, hj, by rw [hlast]; omega⟩
  simp only [offsetLoop, h0, h1]

theorem partScan_le (R : Bool) (data idx : List Nat) (offset : Nat) :
    ∀ (n i : Nat), partScan R data idx offset i n ≤ n * (UINT_MOD - 1) := by
  intro n
  induction n with
  | zero => intro i; simp [partScan_zero]
  | succ n ih =>
    intro i
    rw [partScan_succ]
    have h1 := word_lt data (readAddr R idx offset i)
    have h2 := ih (i + 1)
    have e : (n + 1) * (UINT_MOD - 1) = n * (UINT_MOD - 1) + (UINT_MOD - 1) := by ring
    omega

theorem partTotal_le (R : Bool) (data idx : List Nat) (reps : Nat) :
    ∀ (n offset : Nat),
      partTotal R data idx reps offset n ≤ n * (reps * ((ARR_SIZE - 1) * (UINT_MOD - 1))) := by
  intro n
  induction n with
  | zero => intro offset; simp [partTotal_zero]
  | succ n ih =>
    intro offset
    rw [partTotal_succ]
    have h1 : exactScan R data idx offset ≤ (ARR_SIZE - 1) * (UINT_MOD - 1) := by
      rw [exactScan_eq_partScan]
      exact partScan_le R data idx offset (ARR_SIZE - 1) 0
    have h2 := ih (offset + 1)
    have h3 := Nat.mul_le_mul_left reps h1
    have e : (n + 1) * (reps * ((ARR_SIZE - 1) * (UINT_MOD - 1)))
        = n * (reps * ((ARR_SIZE - 1) * (UINT_MOD - 1)))
          + reps * ((ARR_SIZE - 1) * (UINT_MOD - 1)) := by ring
    omega

/-- The exact total of a default run, four offsets of 10000 repetitions, is below
`2^64`. -/
theorem exactTotal_default_lt (R : Bool) (data idx : List Nat) :
    exactTotal R data idx 10000 4 < ULL_MOD := by
  have h := partTotal_le R data idx 10000 4 0
  rw [← exactTotal_eq_partTotal] at h
  have hA : ARR_SIZE = 10000 := ARR_SIZE_eq
  rw [hA] at h
  unfold UINT_MOD at h
  unfold ULL_MOD
  norm_num at h ⊢
  omega

/-- The printed sum of a run in a sequential build. -/
theorem printedSum_main_seq (argv : List String) (rand : Nat → Nat) (base : Nat)
    (clock : Nat → Nat) :
    printedSum (main false argv rand base clock) =
      (REPS argv).map (fun reps =>
        exactTotal false (initData false rand).data (initData false rand).randIndices reps
          MAX_OFFSET.toNat % ULL_MOD) := by
  rw [printedSum_main]
  cases hr : REPS argv with
  | none => rfl
  | some reps =>
    rw [Option.some_bind, Option.map_some', MAX_OFFSET_toNat]
    obtain ⟨r, hsome⟩ := offsetLoop_seq_some (initData false rand) reps base clock
      (initData_data_length false rand) 4 0 { sum := 0, curr := 0, reads := [] }
      [Line.banner false] ULL_MOD_pos (by omega)
    rcases offsetLoop_sum false (initData false rand) reps base clock 4 0
        { sum := 0, curr := 0, reads := [] } [Line.banner false] ULL_MOD_pos
      with hn | ⟨s1, out1, h1, hsum, _⟩
    · rw [hn] at hsome
      exact Option.noConfusion hsome
    · rw [h1, Option.map_some', hsum, exactTotal_eq_partTotal, Nat.zero_add]

/-- A run fails when its offset loop fails. -/
theorem main_eq_none (R : Bool) (argv : List String) (rand : Nat → Nat) (base : Nat)
    (clock : Nat → Nat) (reps : Nat) (hr : REPS argv = some reps)
    (h : offsetLoop R (initData R rand) reps base clock MAX_OFFSET.toNat 0
      { sum := 0, curr := 0, reads := [] } [Line.banner R] = none) :
    main R argv rand base clock = none := by
  unfold main
  rw [hr]
  simp only [h]

/-- In a `RANDOM` build, a run with at least one repetition fails when one of the first
`ARR_SIZE - 1` indices drawn is `ARR_SIZE - 1`. -/
theorem main_random_none (argv : List String) (rand : Nat → Nat) (base : Nat)
    (clock : Nat → Nat) (reps : Nat) (hr : REPS argv = some (reps + 1)) (j : Nat)
    (hj : j < ARR_SIZE - 1) (hhit : rand (ARR_SIZE + j) % ARR_SIZE = ARR_SIZE - 1) :
    main true argv rand base clock = none := by
  have hA : ARR_SIZE = 10000 := ARR_SIZE_eq
  have hpos : 0 < ARR_SIZE := by omega
  apply main_eq_none true argv rand base clock (reps + 1) hr
  rw [MAX_OFFSET_toNat]
  exact offsetLoop_rand_none (initData true rand) reps base clock 2
    { sum := 0, curr := 0, reads := [] } [Line.banner true] (initData_data_length true rand)
    (fun i hi => by
      rw [initData_randIndices_getD rand i (by omega)]
      exact Nat.mod_lt _ hpos)
    ⟨j, hj, by rw [initData_randIndices_getD rand j (by omega)]; exact hhit⟩

/-! ## Properties of the specification -/

/-- One sequential scan (`REPS = 1`) at byte offset 0 over a vector of `ARR_SIZE`
zeros and ones: the elements `0 .. ARR_SIZE - 2` are read once each, in order,
and the accumulator grows by the number of ones among them. -/
theorem seq_scan_once (data idx : List Nat) (s : State) (hlen : data.length = ARR_SIZE)
    (h01 : ∀ v ∈ data, v = 0 ∨ v = 1) (hs : s.sum < ULL_MOD) :
    ∃ s1, repLoop false data idx 0 1 s = some s1 ∧
      s1.reads = s.reads ++ (List.range (ARR_SIZE - 1)).map (fun i => 4 * i) ∧
      s1.sum = (s.sum + (data.take (ARR_SIZE - 1)).count 1) % ULL_MOD := by
  have hA : ARR_SIZE = 10000 := ARR_SIZE_eq
  obtain ⟨s1, h1, hsum, hreads⟩ := repLoop_seq data idx 0 (by omega) 1 s hs
  refine ⟨s1, h1, ?_, ?_⟩
  · rw [hreads]
    simp [scanAddrs]
  · have hlt : ∀ v ∈ data, v < UINT_MOD := by
      intro v hv
      unfold UINT_MOD
      rcases h01 v hv with e | e <;> omega
    have h0 := scanSum_aligned data hlt (ARR_SIZE - 1) 0 (by omega)
    have hc := sum_eq_count_one (data.take (ARR_SIZE - 1))
      (fun v hv => h01 v (List.mem_of_mem_take hv))
    rw [Nat.mul_zero, List.drop_zero] at h0
    rw [hsum, h0, hc, Nat.one_mul]

/-- C1: in a sequential build, for every byte offset below 4 and every repetition
count, every byte of every view element read lies inside the `4 * ARR_SIZE`
bytes of the vector: the scan completes, and the addresses it dereferences are
exactly `offset + 4*i` for `i < ARR_SIZE - 1`, once per repetition. -/
theorem C1_sequential_reads_in_bounds (data idx : List Nat) (offset reps : Nat) (s : State)
    (hlen : data.length = ARR_SIZE) (hoff : offset < sizeof_ValType) (hs : s.sum < ULL_MOD) :
    (∀ i, i < ARR_SIZE - 1 → ∀ b, b < 4 → offset + 4 * i + b < 4 * ARR_SIZE) ∧
    ∃ s1, repLoop false data idx offset reps s = some s1 ∧
      s1.reads = s.reads ++
        (List.replicate reps ((List.range (ARR_SIZE - 1)).map (fun i => offset + 4 * i))).flatten := by
  have hA : ARR_SIZE = 10000 := ARR_SIZE_eq
  have h4 : sizeof_ValType = 4 := rfl
  refine ⟨fun i hi b hb => by omega, ?_⟩
  obtain ⟨s1, h1, _, hreads⟩ := repLoop_seq data idx offset (by omega) reps s hs
  exact ⟨s1, h1, hreads⟩

/-- Witness of C1 at the largest offset, over a vector of zeros, with two repetitions. -/
theorem C1_sequential_reads_in_bounds_witness :
    (∀ i, i < ARR_SIZE - 1 → ∀ b, b < 4 → 3 + 4 * i + b < 4 * ARR_SIZE) ∧
    ∃ s1, repLoop false (List.replicate ARR_SIZE 0) [] 3 2 { sum := 0, curr := 0, reads := [] }
        = some s1 ∧
      s1.reads = [] ++
        (List.replicate 2 ((List.range (ARR_SIZE - 1)).map (fun i => 3 + 4 * i))).flatten :=
  C1_sequential_reads_in_bounds (List.replicate ARR_SIZE 0) [] 3 2
    { sum := 0, curr := 0, reads := [] } (List.length_replicate _ _) (by decide) ULL_MOD_pos

/-- C2 (defect of the code): with a requested offset constant of 8 the bound computed on
line 68 is 8, because `sizeof(typeid(ValType))` is the size of `std::type_info`
(16), not of `ValType` (4); the sweep then visits offset 7, which is not below
the width of `ValType`. -/
theorem C2_max_offset_exceeds_width :
    maxOffset 8 sizeof_type_info = 8 ∧
      7 ∈ sweepOffsets (maxOffset 8 sizeof_type_info) ∧ ¬ (7 < sizeof_ValType) := by
  decide

/-- C3 (as stated, refuted): with the single argument `abc` the repetition count is 0, not
the default 10000. -/
theorem C3_counterexample :
    REPS ["memoryAccess", "abc"] = some 0 ∧ REPS ["memoryAccess", "abc"] ≠ some 10000 := by
  decide

/-- C3 (amended): for every command line with exactly one argument that contains no
decimal digit, the repetition count is 0, the value `atoi` returns when it
converts nothing. -/
theorem C3_non_numeric_argument_gives_zero (prog arg : String)
    (h : ∀ c ∈ arg.data, c.isDigit = false) : REPS [prog, arg] = some 0 := by
  have e : [prog, arg].getD 1 "" = arg := rfl
  unfold REPS
  rw [if_pos (show [prog, arg].length = 2 from rfl), e, atoi_of_no_digit arg h]
  rfl

/-- Witness of the amended C3 at the argument `abc`. -/
theorem C3_non_numeric_argument_gives_zero_witness : REPS ["memoryAccess", "abc"] = some 0 :=
  C3_non_numeric_argument_gives_zero "memoryAccess" "abc" (by decide)

/-- C4 (as stated, refuted): over the vector of `ARR_SIZE` ones the scan at offset 0 with
one repetition adds 9999, while 10000 slots hold the value 1; the last slot,
at byte address `4 * (ARR_SIZE - 1)`, is never read. -/
theorem C4_counterexample :
    ∃ s1, repLoop false (List.replicate ARR_SIZE 1) [] 0 1 { sum := 0, curr := 0, reads := [] }
        = some s1 ∧
      s1.sum = 9999 ∧ (List.replicate ARR_SIZE 1).count 1 = 10000 ∧
      4 * (ARR_SIZE - 1) ∉ s1.reads := by
  have hA : ARR_SIZE = 10000 := ARR_SIZE_eq
  obtain ⟨s1, h1, hreads, hsum⟩ := seq_scan_once (List.replicate ARR_SIZE 1) []
    { sum := 0, curr := 0, reads := [] } (List.length_replicate _ _)
    (fun v hv => Or.inr (List.eq_of_mem_replicate hv)) ULL_MOD_pos
  refine ⟨s1, h1, ?_, ?_, ?_⟩
  · rw [hsum, List.take_replicate, List.count_replicate]
    simp only [hA, ULL_MOD]
    norm_num
  · rw [List.count_replicate]
    simp only [hA]
    norm_num
  · rw [hreads]
    simp only [List.nil_append, List.mem_map, List.mem_range, not_exists, not_and]
    intro i hi
    omega

/-- C4 (amended): for every vector of `ARR_SIZE` zeros and ones, the sequential scan at
offset 0 with one repetition reads each of the elements `0 .. ARR_SIZE - 2`
exactly once (and never the last one) and adds to the accumulator the number
of ones among those `ARR_SIZE - 1` slots. -/
theorem C4_scan_counts_ones_except_last (data idx : List Nat) (s : State)
    (hlen : data.length = ARR_SIZE) (h01 : ∀ v ∈ data, v = 0 ∨ v = 1)
    (hs : s.sum < ULL_MOD) :
    ∃ s1, repLoop false data idx 0 1 s = some s1 ∧
      s1.reads = s.reads ++ (List.range (ARR_SIZE - 1)).map (fun i => 4 * i) ∧
      s1.sum = (s.sum + (data.take (ARR_SIZE - 1)).count 1) % ULL_MOD :=
  seq_scan_once data idx s hlen h01 hs

/-- Witness of the amended C4 over the vector of zeros, where the scan adds nothing. -/
theorem C4_scan_counts_ones_except_last_witness :
    ∃ s1, repLoop false (List.replicate ARR_SIZE 0) [] 0 1 { sum := 0, curr := 0, reads := [] }
        = some s1 ∧ s1.sum = 0 := by
  obtain ⟨s1, h1, _, hsum⟩ := C4_scan_counts_ones_except_last (List.replicate ARR_SIZE 0) []
    { sum := 0, curr := 0, reads := [] } (List.length_replicate _ _)
    (fun v hv => Or.inl (List.eq_of_mem_replicate hv)) ULL_MOD_pos
  refine ⟨s1, h1, ?_⟩
  rw [hsum, List.take_replicate, List.count_replicate]
  simp

/-- C7: started without arguments (`argc = 1`), the repetition count is 10000. -/
theorem C7_default_repetitions (argv : List String) (h : argv.length = 1) :
    REPS argv = some 10000 := by
  unfold REPS
  rw [if_neg (by omega)]

/-- Witness of C7 for the command line holding only the program name. -/
theorem C7_default_repetitions_witness : REPS ["memoryAccess"] = some 10000 :=
  C7_default_repetitions ["memoryAccess"] rfl

/-- C8 (as stated, refuted): at byte offset 1 with one repetition, the vector of zeros
and the vector that differs from it only by a 1 in slot `ARR_SIZE - 1` give
different sums, 0 and `2^24`: the last view element read covers the low byte
of the last slot. -/
theorem C8_counterexample :
    (repLoop false (List.replicate (ARR_SIZE - 1) 0 ++ [0]) [] 1 1
        { sum := 0, curr := 0, reads := [] }).map State.sum = some 0 ∧
    (repLoop false (List.replicate (ARR_SIZE - 1) 0 ++ [1]) [] 1 1
        { sum := 0, curr := 0, reads := [] }).map State.sum = some 16777216 := by
  have hA : ARR_SIZE = 10000 := ARR_SIZE_eq
  obtain ⟨s1, h1, hsum1⟩ := seq_scan_shifted (List.replicate (ARR_SIZE - 1) 0 ++ [0]) [] 1
    { sum := 0, curr := 0, reads := [] } (length_zeros_append 0)
    (bits_zeros_append _ 0 (Or.inl rfl)) (by omega) (by omega) ULL_MOD_pos
  obtain ⟨s2, h2, hsum2⟩ := seq_scan_shifted (List.replicate (ARR_SIZE - 1) 0 ++ [1]) [] 1
    { sum := 0, curr := 0, reads := [] } (length_zeros_append 1)
    (bits_zeros_append _ 1 (Or.inr rfl)) (by omega) (by omega) ULL_MOD_pos
  rw [count_drop_zeros_append _ _ (by omega)] at hsum1 hsum2
  constructor
  · rw [h1, Option.map_some', hsum1]
    simp [ULL_MOD]
  · rw [h2, Option.map_some', hsum2]
    simp [ULL_MOD]

/-- C8 (amended): for every byte offset below 4 and every repetition count, two vectors
of `ARR_SIZE` elements that agree on the slots `0 .. ARR_SIZE - 2` and on the
low `offset` bytes of slot `ARR_SIZE - 1` make the sequential scan add the same
amount; at offset 0 this is any two vectors that differ only in the last
slot. -/
theorem C8_scan_ignores_high_bytes_of_last (d1 d2 idx : List Nat) (offset reps : Nat)
    (s : State) (h1 : d1.length = ARR_SIZE) (h2 : d2.length = ARR_SIZE)
    (hoff : offset < sizeof_ValType) (hs : s.sum < ULL_MOD)
    (hsame : ∀ j, j < ARR_SIZE - 1 → d1.getD j 0 = d2.getD j 0)
    (hlow : d1.getD (ARR_SIZE - 1) 0 % 256 ^ offset = d2.getD (ARR_SIZE - 1) 0 % 256 ^ offset) :
    ∃ v, (repLoop false d1 idx offset reps s).map State.sum = some v ∧
      (repLoop false d2 idx offset reps s).map State.sum = some v := by
  have hA : ARR_SIZE = 10000 := ARR_SIZE_eq
  have h4 : sizeof_ValType = 4 := rfl
  obtain ⟨s1, e1, hsum1, _⟩ := repLoop_seq d1 idx offset (by omega) reps s hs
  obtain ⟨s2, e2, hsum2, _⟩ := repLoop_seq d2 idx offset (by omega) reps s hs
  have hb := byteAt_eq_below d1 d2 offset (by omega) hsame hlow
  have hc := scanSum_congr d1 d2 (4 * (ARR_SIZE - 1) + offset) hb (ARR_SIZE - 1) offset
    (by omega)
  refine ⟨s1.sum, ?_, ?_⟩
  · rw [e1, Option.map_some']
  · rw [e2, Option.map_some', hsum2, hsum1, hc]

/-- Witness of the amended C8 at offset 0: a vector of zeros and the same vector with a
1 in the last slot. -/
theorem C8_scan_ignores_high_bytes_of_last_witness :
    ∃ v, (repLoop false (List.replicate (ARR_SIZE - 1) 0 ++ [0]) [] 0 3
          { sum := 0, curr := 0, reads := [] }).map State.sum = some v ∧
      (repLoop false (List.replicate (ARR_SIZE - 1) 0 ++ [1]) [] 0 3
          { sum := 0, curr := 0, reads := [] }).map State.sum = some v :=
  C8_scan_ignores_high_bytes_of_last (List.replicate (ARR_SIZE - 1) 0 ++ [0])
    (List.replicate (ARR_SIZE - 1) 0 ++ [1]) [] 0 3 { sum := 0, curr := 0, reads := [] }
    (length_zeros_append 0) (length_zeros_append 1) (by decide) ULL_MOD_pos
    (fun j hj => by
      rw [List.getD_append _ _ _ _ (by rw [List.length_replicate]; exact hj),
        List.getD_append _ _ _ _ (by rw [List.length_replicate]; exact hj)])
    (by rw [Nat.pow_zero, Nat.mod_one, Nat.mod_one])

/-- C10: over a vector of `ARR_SIZE` zeros and ones stored as 4-byte little-endian
elements, for a byte offset `k` in `1..3` the view element `i`
(`i < ARR_SIZE - 1`) equals `data[i+1] * 2^(8*(4-k))`, and one sequential scan
at offset `k` adds `2^(8*(4-k))` times the number of ones among the slots
`1 .. ARR_SIZE - 1`. -/
theorem C10_shifted_view_values (data idx : List Nat) (k : Nat) (s : State)
    (hlen : data.length = ARR_SIZE) (h01 : ∀ v ∈ data, v = 0 ∨ v = 1)
    (hk1 : 1 ≤ k) (hk4 : k < 4) (hs : s.sum < ULL_MOD) :
    (∀ i, i < ARR_SIZE - 1 →
      load data (k + 4 * i) = some (data.getD (i + 1) 0 * 2 ^ (8 * (4 - k)))) ∧
    ∃ s1, repLoop false data idx k 1 s = some s1 ∧
      s1.sum = (s.sum + 2 ^ (8 * (4 - k)) * (data.drop 1).count 1) % ULL_MOD := by
  have hA : ARR_SIZE = 10000 := ARR_SIZE_eq
  refine ⟨?_, seq_scan_shifted data idx k s hlen h01 hk1 hk4 hs⟩
  intro i hi
  rw [load_of_le (by omega), Nat.add_comm k (4 * i),
    word_shifted data i k hk1 hk4 (getD_le_one h01 i) (getD_le_one h01 (i + 1))]

/-- Witness of C10 at offset 1 over the vector of ones: the scan adds `2^24` for each
of the 9999 slots after the first. -/
theorem C10_shifted_view_values_witness :
    (repLoop false (List.replicate ARR_SIZE 1) [] 1 1
        { sum := 0, curr := 0, reads := [] }).map State.sum = some (16777216 * 9999) := by
  have hA : ARR_SIZE = 10000 := ARR_SIZE_eq
  obtain ⟨_, s1, h1, hsum⟩ := C10_shifted_view_values (List.replicate ARR_SIZE 1) [] 1
    { sum := 0, curr := 0, reads := [] } (List.length_replicate _ _)
    (fun v hv => Or.inr (List.eq_of_mem_replicate hv)) (by omega) (by omega) ULL_MOD_pos
  rw [h1, Option.map_some', hsum, List.drop_replicate, List.count_replicate]
  simp [hA, ULL_MOD]

/-- C5 (defect of the code): in a `RANDOM` build, with draws whose indices all lie in
`[0, ARR_SIZE)` and `randIndices[2753] = ARR_SIZE - 1`, the read
`*(curr + randIndices[2753])` at byte offset 1 covers the bytes
`1 + 4*(ARR_SIZE-1) .. 4 + 4*(ARR_SIZE-1)`, the last of which lies outside the
vector; the run with one repetition does not complete. -/
theorem C5_random_read_out_of_bounds :
    (initData true drawsHittingLast).randIndices.all (fun x => decide (x < ARR_SIZE)) = true ∧
    (initData true drawsHittingLast).randIndices.getD 2753 0 = ARR_SIZE - 1 ∧
    load (initData true drawsHittingLast).data (1 + sizeof_ValType * (ARR_SIZE - 1)) = none ∧
    main true ["memoryAccess", "1"] drawsHittingLast 0 (fun t => t) = none := by
  have hA : ARR_SIZE = 10000 := ARR_SIZE_eq
  have hpos : 0 < ARR_SIZE := by omega
  have hlen := initData_data_length true drawsHittingLast
  have hget : (initData true drawsHittingLast).randIndices.getD 2753 0 = ARR_SIZE - 1 := by
    rw [initData_randIndices_getD drawsHittingLast 2753 (by omega), hA]
    rfl
  refine ⟨?_, hget, ?_, ?_⟩
  · rw [List.all_eq_true]
    intro x hx
    rw [initData_randIndices, List.mem_map] at hx
    obtain ⟨j, _, rfl⟩ := hx
    exact decide_eq_true (Nat.mod_lt _ hpos)
  · exact load_of_lt (by rw [hlen]; unfold sizeof_ValType; omega)
  · have hr : REPS ["memoryAccess", "1"] = some (0 + 1) := by decide
    refine main_random_none _ drawsHittingLast 0 (fun t => t) 0 hr 2753 (by omega) ?_
    rw [hA]
    rfl

/-- C6: the printed sum of a run does not depend on the readings of the timer's clock
(nor on the address of the vector): two runs of the same build with the same
command line and the same draws print the same sum. In a sequential build
the sum is the exact total of the values read, modulo `2^64`, a function of
the draws, the repetition count and the number of offsets. -/
theorem C6_sum_independent_of_timer (RANDOM : Bool) (argv : List String) (rand : Nat → Nat)
    (base1 base2 : Nat) (clock1 clock2 : Nat → Nat) :
    printedSum (main RANDOM argv rand base1 clock1) =
      printedSum (main RANDOM argv rand base2 clock2) ∧
    printedSum (main false argv rand base1 clock1) =
      (REPS argv).map (fun reps =>
        exactTotal false (initData false rand).data (initData false rand).randIndices reps
          MAX_OFFSET.toNat % ULL_MOD) := by
  refine ⟨?_, printedSum_main_seq argv rand base1 clock1⟩
  rw [printedSum_main, printedSum_main]
  cases REPS argv with
  | none => rfl
  | some reps =>
    rw [Option.some_bind, Option.some_bind]
    have h := congrArg (Option.map State.sum)
      (offsetLoop_state_indep RANDOM (initData RANDOM rand) reps base1 base2 clock1 clock2
        MAX_OFFSET.toNat 0 { sum := 0, curr := 0, reads := [] } [Line.banner RANDOM]
        [Line.banner RANDOM])
    rw [Option.map_map, Option.map_map] at h
    exact h

/-- C9: in a run with the default repetition count 10000 (four offsets, vector of
zeros and ones filled by `initData`), the exact total of all values read is
below `2^64`; whenever the run prints a sum it is that exact total, and a
sequential build always prints it. -/
theorem C9_accumulator_never_wraps (RANDOM : Bool) (prog : String) (rand : Nat → Nat)
    (base : Nat) (clock : Nat → Nat) :
    exactTotal RANDOM (initData RANDOM rand).data (initData RANDOM rand).randIndices 10000 4
      < 2 ^ 64 ∧
    (printedSum (main RANDOM [prog] rand base clock) = none ∨
      printedSum (main RANDOM [prog] rand base clock) =
        some (exactTotal RANDOM (initData RANDOM rand).data (initData RANDOM rand).randIndices
          10000 4)) ∧
    printedSum (main false [prog] rand base clock) =
      some (exactTotal false (initData false rand).data (initData false rand).randIndices
        10000 4) := by
  refine ⟨exactTotal_default_lt RANDOM _ _, ?_, ?_⟩
  · rw [printedSum_main, REPS_default, Option.some_bind, MAX_OFFSET_toNat]
    rcases offsetLoop_sum RANDOM (initData RANDOM rand) 10000 base clock 4 0
        { sum := 0, curr := 0, reads := [] } [Line.banner RANDOM] ULL_MOD_pos
      with hn | ⟨s1, out1, h1, hsum, _⟩
    · left
      rw [hn]
      rfl
    · right
      rw [h1, Option.map_some', hsum, Nat.zero_add, ← exactTotal_eq_partTotal,
        Nat.mod_eq_of_lt (exactTotal_default_lt RANDOM _ _)]
  · rw [printedSum_main_seq, REPS_default, Option.map_some', MAX_OFFSET_toNat,
      Nat.mod_eq_of_lt (exactTotal_default_lt false _ _)]

end MemoryAccess
